import Mathlib

/-!
Verification of the Terraform-Agent core subsystems: the response reconciler
(llm.py), the dependency graph builder and the relevance selector
(terraform_analyzer.py).  Python strings are modelled as Lean strings, regex
scanning is modelled by explicit character-list scanners that mirror the
regex engine behaviour (leftmost match, greedy or lazy groups with
backtracking where the pattern needs it), json.loads is modelled by a strict
recursive-descent JSON parser, and dict values are modelled by association
lists with dict insertion semantics (first position kept, value updated).
-/

namespace TfAgent

/-! Character classes used by the Python regexes and by str.strip / json. -/

def isPyWs (c : Char) : Bool :=
  c == ' ' || c == '\t' || c == '\n' || c == '\r' || c == '\x0b' || c == '\x0c'

def isJsonWs (c : Char) : Bool :=
  c == ' ' || c == '\t' || c == '\n' || c == '\r'

def isWordChar (c : Char) : Bool :=
  c.isAlphanum || c == '_'

def squote : Char := Char.ofNat 39

def lbrace : Char := '\x7b'

def rbrace : Char := '\x7d'

/-- Python str.strip with no argument: remove leading and trailing whitespace. -/
def pyTrim (cs : List Char) : List Char :=
  ((cs.dropWhile isPyWs).reverse.dropWhile isPyWs).reverse

/-- Python substring test (the `in` operator on str), on character lists. -/
def isSubstrL (needle : List Char) : List Char → Bool
  | [] => needle.isPrefixOf []
  | c :: t => needle.isPrefixOf (c :: t) || isSubstrL needle t

def isSubstrS (needle hay : String) : Bool := isSubstrL needle.data hay.data

def toLowerS (s : String) : String := String.mk (s.data.map Char.toLower)

def pystartswith (s pre : String) : Bool := pre.data.isPrefixOf s.data

def pyendswith (s suf : String) : Bool := suf.data.isSuffixOf s.data

/-- Literal-prefix consumer: if lit is a prefix of cs, drop it. -/
def dropLit (lit cs : List Char) : Option (List Char) :=
  if lit.isPrefixOf cs then some (cs.drop lit.length) else none

/-! The fenced-block search (re.search of three backticks + json tag) -/

def fence3 : List Char := "```".data

def fenceTag : List Char := "```json".data

/-- Index of the first occurrence of the closing fence in s, if any. -/
def fenceClose : List Char → Option Nat
  | [] => none
  | c :: t =>
    if fence3.isPrefixOf (c :: t) then some 0
    else (fenceClose t).map (· + 1)

/-- Model of re.search of the fenced-json pattern: at the leftmost position
where the opening tag occurs and a closing fence follows, the captured group
is the text between them with surrounding whitespace stripped (the pattern
wraps the lazy group in two greedy whitespace matchers). -/
def findFencedJson : List Char → Option (List Char)
  | [] => none
  | c :: t =>
    if fenceTag.isPrefixOf (c :: t) then
      match fenceClose ((c :: t).drop 7) with
      | some j => some (pyTrim (((c :: t).drop 7).take j))
      | none => findFencedJson t
    else findFencedJson t

/-! Strict JSON values and parser, modelling Python json.loads. -/

inductive Json where
  | null : Json
  | bool : Bool → Json
  | num : String → Json
  | str : String → Json
  | arr : List Json → Json
  | obj : List (String × Json) → Json

/-- Python dict insertion: an existing key keeps its position and gets the
new value, a new key is appended. -/
def dictUpd : List (String × Json) → String → Json → List (String × Json)
  | [], k, v => [(k, v)]
  | (k', v') :: t, k, v =>
    if k' == k then (k', v) :: t else (k', v') :: dictUpd t k v

/-- Dict insertion for string-valued mappings (manual extraction result). -/
def dictUpdS : List (String × String) → String → String → List (String × String)
  | [], k, v => [(k, v)]
  | (k', v') :: t, k, v =>
    if k' == k then (k', v) :: t else (k', v') :: dictUpdS t k v

def hexVal (c : Char) : Option Nat :=
  if c.isDigit then some (c.toNat - 48)
  else if 'a' ≤ c && c ≤ 'f' then some (c.toNat - 87)
  else if 'A' ≤ c && c ≤ 'F' then some (c.toNat - 55)
  else none

/-- Body of a JSON string after the opening quote; strict mode rejects raw
control characters; recognised escapes follow the JSON grammar. -/
def parseStringBody : List Char → Option (List Char × List Char)
  | [] => none
  | '"' :: rest => some ([], rest)
  | '\\' :: '"' :: rest =>
    (parseStringBody rest).map (fun r => ('"' :: r.1, r.2))
  | '\\' :: '\\' :: rest =>
    (parseStringBody rest).map (fun r => ('\\' :: r.1, r.2))
  | '\\' :: '/' :: rest =>
    (parseStringBody rest).map (fun r => ('/' :: r.1, r.2))
  | '\\' :: 'b' :: rest =>
    (parseStringBody rest).map (fun r => ('\x08' :: r.1, r.2))
  | '\\' :: 'f' :: rest =>
    (parseStringBody rest).map (fun r => ('\x0c' :: r.1, r.2))
  | '\\' :: 'n' :: rest =>
    (parseStringBody rest).map (fun r => ('\n' :: r.1, r.2))
  | '\\' :: 'r' :: rest =>
    (parseStringBody rest).map (fun r => ('\r' :: r.1, r.2))
  | '\\' :: 't' :: rest =>
    (parseStringBody rest).map (fun r => ('\t' :: r.1, r.2))
  | '\\' :: 'u' :: h1 :: h2 :: h3 :: h4 :: rest =>
    match hexVal h1, hexVal h2, hexVal h3, hexVal h4 with
    | some a, some b, some c, some d =>
      (parseStringBody rest).map
        (fun r => (Char.ofNat (((a * 16 + b) * 16 + c) * 16 + d) :: r.1, r.2))
    | _, _, _, _ => none
  | '\\' :: _ :: _ => none
  | '\\' :: [] => none
  | c :: rest =>
    if c.toNat < 32 then none
    else (parseStringBody rest).map (fun r => (c :: r.1, r.2))

/-- Digit run helpers for the JSON number grammar. -/
def digitRun (cs : List Char) : List Char × List Char :=
  (cs.takeWhile Char.isDigit, cs.dropWhile Char.isDigit)

/-- JSON integer part: 0, or a nonzero digit followed by digits. -/
def parseIntPart (cs : List Char) : Option (List Char × List Char) :=
  match cs with
  | '0' :: rest => some (['0'], rest)
  | c :: rest =>
    if c.isDigit then
      let r := digitRun rest
      some (c :: r.1, r.2)
    else none
  | [] => none

/-- Optional fraction: a dot followed by at least one digit, else nothing. -/
def parseFracPart (cs : List Char) : List Char × List Char :=
  match cs with
  | '.' :: rest =>
    match rest with
    | d :: _ =>
      if d.isDigit then
        let r := digitRun rest
        ('.' :: r.1, r.2)
      else ([], cs)
    | [] => ([], cs)
  | _ => ([], cs)

/-- Optional exponent: e or E, optional sign, at least one digit. -/
def parseExpPart (cs : List Char) : List Char × List Char :=
  match cs with
  | e :: rest =>
    if e == 'e' || e == 'E' then
      match rest with
      | s :: rest2 =>
        if s == '+' || s == '-' then
          match rest2 with
          | d :: _ =>
            if d.isDigit then
              let r := digitRun rest2
              (e :: s :: r.1, r.2)
            else ([], cs)
          | [] => ([], cs)
        else if s.isDigit then
          let r := digitRun rest
          (e :: r.1, r.2)
        else ([], cs)
      | [] => ([], cs)
    else ([], cs)
  | [] => ([], cs)

/-- JSON number token; the lexeme is kept verbatim. -/
def parseNumber (cs : List Char) : Option (Json × List Char) :=
  let signed := match cs with
    | '-' :: rest => some (['-'], rest)
    | _ => some (([] : List Char), cs)
  match signed with
  | some (sg, cs1) =>
    match parseIntPart cs1 with
    | some (ip, cs2) =>
      let fr := parseFracPart cs2
      let ex := parseExpPart fr.2
      some (Json.num (String.mk (sg ++ ip ++ fr.1 ++ ex.1)), ex.2)
    | none => none
  | none => none

def skipJsonWs (cs : List Char) : List Char := cs.dropWhile isJsonWs

mutual

/-- JSON value, first character assumed non-whitespace. -/
def parseValue : Nat → List Char → Option (Json × List Char)
  | 0, _ => none
  | fuel + 1, cs =>
    match cs with
    | '"' :: rest =>
      (parseStringBody rest).map (fun r => (Json.str (String.mk r.1), r.2))
    | 't' :: _ =>
      (dropLit "true".data cs).map (fun r => (Json.bool true, r))
    | 'f' :: _ =>
      (dropLit "false".data cs).map (fun r => (Json.bool false, r))
    | 'n' :: _ =>
      (dropLit "null".data cs).map (fun r => (Json.null, r))
    | c :: rest =>
      if c == lbrace then parseObjBody fuel (skipJsonWs rest)
      else if c == '[' then parseArrBody fuel (skipJsonWs rest)
      else if c == '-' || c.isDigit then parseNumber cs
      else none
    | [] => none

/-- After the opening brace and whitespace: empty object or members. -/
def parseObjBody : Nat → List Char → Option (Json × List Char)
  | 0, _ => none
  | fuel + 1, cs =>
    match cs with
    | c :: rest =>
      if c == rbrace then some (Json.obj [], rest)
      else parseMembers fuel cs []
    | [] => none

/-- Comma-separated key/value members, dict semantics on duplicates. -/
def parseMembers : Nat → List Char → List (String × Json) →
    Option (Json × List Char)
  | 0, _, _ => none
  | fuel + 1, cs, acc =>
    match cs with
    | '"' :: rest =>
      match parseStringBody rest with
      | some (key, r1) =>
        match skipJsonWs r1 with
        | ':' :: r2 =>
          match parseValue fuel (skipJsonWs r2) with
          | some (v, r3) =>
            let acc2 := dictUpd acc (String.mk key) v
            match skipJsonWs r3 with
            | ',' :: r4 => parseMembers fuel (skipJsonWs r4) acc2
            | c :: r4 =>
              if c == rbrace then some (Json.obj acc2, r4) else none
            | [] => none
          | none => none
        | _ => none
      | none => none
    | _ => none

/-- After the opening bracket and whitespace: empty array or elements. -/
def parseArrBody : Nat → List Char → Option (Json × List Char)
  | 0, _ => none
  | fuel + 1, cs =>
    match cs with
    | ']' :: rest => some (Json.arr [], rest)
    | _ => parseElems fuel cs []

/-- Comma-separated array elements. -/
def parseElems : Nat → List Char → List Json → Option (Json × List Char)
  | 0, _, _ => none
  | fuel + 1, cs, acc =>
    match parseValue fuel cs with
    | some (v, r1) =>
      match skipJsonWs r1 with
      | ',' :: r2 => parseElems fuel (skipJsonWs r2) (acc ++ [v])
      | ']' :: r2 => some (Json.arr (acc ++ [v]), r2)
      | _ => none
    | none => none

end

/-- Model of json.loads: a single strict JSON document with optional
surrounding whitespace; anything trailing is an error. -/
def jsonParse (cs : List Char) : Option Json :=
  let cs1 := skipJsonWs cs
  match parseValue (cs1.length + 1) cs1 with
  | some (v, rest) => if (skipJsonWs rest).isEmpty then some v else none
  | none => none

/-! Manual extraction of file sections (the finditer over the marker
pattern: three dashes, File:, a path, three dashes, then lazy content up to
the next marker head or end of text). -/

def dash3 : List Char := "---".data

/-- The content lookahead: three dashes, whitespace, then File: again. -/
def isFileStop (cs : List Char) : Bool :=
  match dropLit dash3 cs with
  | some r => "File:".data.isPrefixOf (r.dropWhile isPyWs)
  | none => false

/-- Length of the lazy content group: smallest extent whose end satisfies
the lookahead, or everything to the end of the text. -/
def stopScan : List Char → Nat
  | [] => 0
  | c :: rest => if isFileStop (c :: rest) then 0 else 1 + stopScan rest

def isPathChar (c : Char) : Bool :=
  isWordChar c || c == '.' || c == '/' || c == '\\' || c == '-'

/-- Backtracking for the greedy path group of the marker: the largest cut of
the maximal path-character run after which whitespace and three dashes
follow.  Returns the cut length. -/
def markerCloseAux (c4 : List Char) : Nat → Option Nat
  | 0 => none
  | k + 1 =>
    if dash3.isPrefixOf ((c4.drop (k + 1)).dropWhile isPyWs) then some (k + 1)
    else markerCloseAux c4 k

/-- Match the per-file marker at the head of cs: three dashes, whitespace,
File:, whitespace, a nonempty path of path characters, whitespace, three
dashes, then the trailing greedy whitespace before the content group.
Returns the path group and the remaining text where content starts. -/
def matchFileMarker (cs : List Char) : Option (List Char × List Char) :=
  match dropLit dash3 cs with
  | none => none
  | some c1 =>
    match dropLit "File:".data (c1.dropWhile isPyWs) with
    | none => none
    | some c3 =>
      let c4 := c3.dropWhile isPyWs
      let run := c4.takeWhile isPathChar
      if run.isEmpty then none
      else
        match markerCloseAux c4 run.length with
        | none => none
        | some k =>
          let afterClose := (((c4.drop k).dropWhile isPyWs).drop 3)
          some (run.take k, afterClose.dropWhile isPyWs)

/-- The finditer loop: try the marker pattern at every position from i on;
on a match, emit the stripped path and stripped content and resume at the
end of the content group.  Every step advances the position by at least one,
so a fuel of one more than the text length runs the loop to completion. -/
def scanManualF : Nat → List Char → Nat → List (String × String)
  | 0, _, _ => []
  | fuel + 1, cs, i =>
    if i < cs.length then
      match matchFileMarker (cs.drop i) with
      | some (path, rest) =>
        let consumed := (cs.length - i) - rest.length
        let stopLen := stopScan rest
        (String.mk (pyTrim path), String.mk (pyTrim (rest.take stopLen))) ::
          scanManualF fuel cs (i + max (consumed + stopLen) 1)
      | none => scanManualF fuel cs (i + 1)
    else []

def scanManual (cs : List Char) : List (String × String) :=
  scanManualF (cs.length + 1) cs 0

/-- Model of llm.py _extract_files_manually: collect all marker matches into
a dict (later duplicate paths overwrite the stored content). -/
def extract_files_manually (text : String) : List (String × String) :=
  (scanManual text.data).foldl (fun acc p => dictUpdS acc p.1 p.2) []

/-- Wrap the manually extracted string mapping as a JSON-like object, the
shape the structured tiers produce. -/
def manualObj (files : List (String × String)) : Json :=
  Json.obj (files.map (fun p => (p.1, Json.str p.2)))

/-- Model of llm.py _extract_modified_files: if a fenced json block is
found, parse its inner text; if that parse fails fall back to manual
extraction.  If no fenced block is found, parse the whole response; if that
fails fall back to manual extraction.  The JSONDecodeError handler is the
only exception path and it is total. -/
def extract_modified_files (response : String) : Json :=
  match findFencedJson response.data with
  | some inner =>
    match jsonParse inner with
    | some v => v
    | none => manualObj (extract_files_manually response)
  | none =>
    match jsonParse response.data with
    | some v => v
    | none => manualObj (extract_files_manually response)

/-- Outcome of whichever structured tier the code attempts: the fenced inner
text when a fenced block is found, the whole text otherwise. -/
def structuredTierResult (response : String) : Option Json :=
  match findFencedJson response.data with
  | some inner => jsonParse inner
  | none => jsonParse response.data

/-! Keyword extraction (terraform_analyzer.py _extract_keywords_from_prompt) -/

def terraform_keywords : List String :=
  ["vpc", "subnet", "security_group", "nacl", "sg", "security", "network",
   "flow_log", "encryption", "firewall", "route", "gateway", "iam", "policy",
   "ec2", "rds", "lambda", "s3", "kms", "ssl", "tls", "https", "alb", "elb",
   "load_balancer", "autoscaling", "cloudwatch", "logs", "cloudtrail",
   "monitoring", "alerts", "backup", "storage"]

def stop_words : List String :=
  ["update", "the", "by", "adding", "and", "or", "with", "for", "to", "in",
   "on", "a", "an", "this", "that", "these", "those", "our", "your", "my",
   "mine", "we", "need", "want", "should", "will"]

/-- Maximal runs of word characters (the regex token of three or more word
characters between word boundaries picks exactly the maximal runs). -/
def wordRunsAux (acc : List Char) : List Char → List (List Char)
  | [] => if acc.isEmpty then [] else [acc.reverse]
  | c :: rest =>
    if isWordChar c then wordRunsAux (c :: acc) rest
    else if acc.isEmpty then wordRunsAux [] rest
    else acc.reverse :: wordRunsAux [] rest

def wordTokensOf (s : String) : List String :=
  ((wordRunsAux [] s.data).filter (fun r => 3 ≤ r.length)).map
    (fun r => String.mk r)

/-- Model of _extract_keywords_from_prompt: vocabulary terms found as
substrings of the lowercased prompt; if none, the word tokens of length at
least three that are not stop words. -/
def extract_keywords_from_prompt (prompt : String) : List String :=
  let pl := toLowerS prompt
  let found := terraform_keywords.filter (fun k => isSubstrS k pl)
  if found.isEmpty then
    (wordTokensOf pl).filter (fun w => !(stop_words.contains w))
  else found

/-! Module source extraction (_extract_module_sources): the regex scans for
a module block header and a source attribute inside the brace region. -/

def isNameChar (c : Char) : Bool := isWordChar c || c == '-'

def isSrcChar (c : Char) : Bool :=
  isWordChar c || c == '.' || c == '/' || c == '-'

def isQuoteChar (c : Char) : Bool := c == '"' || c == squote

/-- The tail of the module regex: source, equals, a quoted path of source
characters.  Returns the path and the rest after the closing quote. -/
def tryModuleTail (cs : List Char) : Option (String × List Char) :=
  match dropLit "source".data cs with
  | none => none
  | some c1 =>
    match (c1.dropWhile isPyWs) with
    | '=' :: c3 =>
      match c3.dropWhile isPyWs with
      | q :: c5 =>
        if isQuoteChar q then
          let run := c5.takeWhile isSrcChar
          if run.isEmpty then none
          else
            match c5.drop run.length with
            | q2 :: rest => if isQuoteChar q2 then some (String.mk run, rest) else none
            | [] => none
        else none
      | [] => none
    | _ => none

/-- Greedy backtracking of the brace-body group: the largest cut of the
maximal non-closing-brace run after which the source tail matches. -/
def moduleSplitAux (c7 : List Char) : Nat → Option (String × List Char)
  | 0 => tryModuleTail c7
  | k + 1 =>
    match tryModuleTail (c7.drop (k + 1)) with
    | some r => some r
    | none => moduleSplitAux c7 k

/-- Match the module regex at the head of cs: the module word, whitespace,
a quoted name, an opening brace, then a source attribute inside the brace
region.  Returns the source path and the rest after the match. -/
def matchModuleAt (cs : List Char) : Option (String × List Char) :=
  match dropLit "module".data cs with
  | none => none
  | some c1 =>
    match c1 with
    | w :: _ =>
      if isPyWs w then
        match c1.dropWhile isPyWs with
        | q :: c3 =>
          if isQuoteChar q then
            let nameRun := c3.takeWhile isNameChar
            if nameRun.isEmpty then none
            else
              match c3.drop nameRun.length with
              | q2 :: c5 =>
                if isQuoteChar q2 then
                  match c5.dropWhile isPyWs with
                  | b :: c7 =>
                    if b == lbrace then
                      moduleSplitAux c7 (c7.takeWhile (fun c => !(c == rbrace))).length
                    else none
                  | [] => none
                else none
              | [] => none
          else none
        | [] => none
      else none
    | [] => none

/-- The finditer loop for module sources. -/
def msScanF : Nat → List Char → Nat → List String
  | 0, _, _ => []
  | fuel + 1, cs, i =>
    if i < cs.length then
      match matchModuleAt (cs.drop i) with
      | some (src, rest) =>
        src :: msScanF fuel cs (i + max ((cs.length - i) - rest.length) 1)
      | none => msScanF fuel cs (i + 1)
    else []

def extract_module_sources (content : String) : List String :=
  msScanF (content.data.length + 1) content.data 0

/-! Variable reference extraction (_extract_variable_references). -/

def isVarChar (c : Char) : Bool := c.isAlphanum || c == '_' || c == '-'

/-- First-kept deduplication, modelling the conversion through a set. -/
def dedupAcc [BEq α] (seen : List α) : List α → List α
  | [] => []
  | x :: xs =>
    if seen.contains x then dedupAcc seen xs
    else x :: dedupAcc (x :: seen) xs

def dedup [BEq α] (l : List α) : List α := dedupAcc [] l

/-- The finditer loop for the var-dot-name pattern. -/
def vrScanF : Nat → List Char → Nat → List String
  | 0, _, _ => []
  | fuel + 1, cs, i =>
    if i < cs.length then
      let s := cs.drop i
      if "var.".data.isPrefixOf s then
        let run := (s.drop 4).takeWhile isVarChar
        if run.isEmpty then vrScanF fuel cs (i + 1)
        else String.mk run :: vrScanF fuel cs (i + 4 + run.length)
      else vrScanF fuel cs (i + 1)
    else []

def extract_variable_references (content : String) : List String :=
  dedup (vrScanF (content.data.length + 1) content.data 0)

/-! Posix path helpers used by the graph builder (os.path.dirname,
os.path.join, os.path.normpath). -/

def dirnamePosix (p : String) : String :=
  let cs := p.data
  match cs.reverse.findIdx? (fun c => c == '/') with
  | none => ""
  | some j =>
    let head := cs.take (cs.length - j)
    if head.all (fun c => c == '/') then String.mk head
    else String.mk ((head.reverse.dropWhile (fun c => c == '/')).reverse)

def joinPosix (a b : String) : String :=
  if pystartswith b "/" then b
  else if a == "" || pyendswith a "/" then a ++ b
  else a ++ "/" ++ b

def splitSlashAux (acc : List Char) : List Char → List String
  | [] => [String.mk acc.reverse]
  | c :: t =>
    if c == '/' then String.mk acc.reverse :: splitSlashAux [] t
    else splitSlashAux (c :: acc) t

def normStep (lead : Nat) (acc : List String) (comp : String) : List String :=
  if comp == "" || comp == "." then acc
  else if !(comp == "..") || (lead == 0 && acc.isEmpty) ||
      (match acc.getLast? with | some l => l == ".." | none => false) then
    acc ++ [comp]
  else if acc.isEmpty then acc
  else acc.dropLast

def normpathPosix (p : String) : String :=
  if p == "" then "." else
  let lead : Nat :=
    if pystartswith p "//" && !(pystartswith p "///") then 2
    else if pystartswith p "/" then 1 else 0
  let comps := splitSlashAux [] p.data
  let news := comps.foldl (normStep lead) []
  let res := String.mk (List.replicate lead '/') ++ String.intercalate "/" news
  if res == "" then "." else res

/-- Resolution of a relative module source against the declaring file. -/
def resolveModuleDir (fp src : String) : String :=
  normpathPosix (joinPosix (dirnamePosix fp) src)

/-! The dependency graph builder (_build_dependency_graph). -/

def varDeclPat (v : String) : String := "variable \"" ++ v ++ "\""

/-- Module edges of one file: for each relative source, every corpus path
with the resolved directory as a string prefix. -/
def moduleEdges (corpusKeys : List String) (fp : String)
    (sources : List String) : List String :=
  sources.flatMap (fun src =>
    if pystartswith src "./" || pystartswith src "../" then
      corpusKeys.filter (fun other => pystartswith other (resolveModuleDir fp src))
    else [])

/-- Variable edges of one file: for each referenced name, every corpus file
whose content contains the textual declaration pattern. -/
def varEdges (corpus : List (String × String)) (content : String) : List String :=
  (extract_variable_references content).flatMap (fun v =>
    (corpus.filter (fun q => isSubstrS (varDeclPat v) q.2)).map Prod.fst)

def depsFor (corpus : List (String × String)) (fp content : String) : List String :=
  moduleEdges (corpus.map Prod.fst) fp (extract_module_sources content) ++
    varEdges corpus content

/-- Model of _build_dependency_graph: every corpus file gets its adjacency
list, module edges first then variable edges, in corpus order. -/
def build_dependency_graph (corpus : List (String × String)) :
    List (String × List String) :=
  corpus.map (fun p => (p.1, depsFor corpus p.1 p.2))

/-- Adjacency lookup with the empty default (dependency_graph.get(fp, [])). -/
def lookupG (g : List (String × List String)) (k : String) : List String :=
  match g.find? (fun p => p.1 == k) with
  | some p => p.2
  | none => []

/-! The recursive dependency traversal (_find_all_dependencies).  The Python
code threads one mutable visited set through the recursion; the model passes
the visited list explicitly and returns the updated list, together with the
invariant that the visited list only grows, which also drives the
termination argument on cyclic graphs. -/

def allNodes (g : List (String × List String)) : List String :=
  g.foldr (fun p acc => p.1 :: p.2 ++ acc) []

theorem lookupG_eq_nil_of_not_mem (g : List (String × List String)) (fp : String)
    (h : fp ∉ allNodes g) : lookupG g fp = [] := by
  induction g with
  | nil => rfl
  | cons p g' ih =>
    have hexp : allNodes (p :: g') = p.1 :: (p.2 ++ allNodes g') := rfl
    rw [hexp, List.mem_cons] at h
    push_neg at h
    have h1 : fp ≠ p.1 := h.1
    have h3 : fp ∉ allNodes g' := fun hm => h.2 (List.mem_append_right _ hm)
    have hne : (p.1 == fp) = false :=
      beq_eq_false_iff_ne.mpr (fun he => h1 he.symm)
    simp only [lookupG, List.find?_cons, hne]
    exact ih h3

/-- Count of graph nodes not yet visited: the termination measure. -/
def countNew (g : List (String × List String)) (v : List String) : Nat :=
  ((allNodes g).filter (fun n => decide (n ∉ v))).length

theorem filter_imp_length_le (l : List String) (p q : String → Bool)
    (h : ∀ a, p a = true → q a = true) :
    (l.filter p).length ≤ (l.filter q).length := by
  induction l with
  | nil => simp
  | cons a t ih =>
    by_cases hp : p a = true
    · have hq := h a hp
      simp only [List.filter_cons, hp, hq, if_true, List.length_cons]
      exact Nat.succ_le_succ ih
    · have hp' : p a = false := eq_false_of_ne_true hp
      cases hq : q a
      · simp only [List.filter_cons, hp', hq, if_false]
        exact ih
      · simp only [List.filter_cons, hp', hq, if_false, if_true, List.length_cons]
        exact Nat.le_succ_of_le ih

theorem filter_imp_length_lt (l : List String) (p q : String → Bool)
    (h : ∀ a, p a = true → q a = true) (x : String) (hx : x ∈ l)
    (hqx : q x = true) (hpx : p x = false) :
    (l.filter p).length < (l.filter q).length := by
  induction l with
  | nil => cases hx
  | cons a t ih =>
    rcases List.mem_cons.mp hx with rfl | hxt
    · simp only [List.filter_cons, hpx, hqx, if_false, if_true, List.length_cons]
      exact Nat.lt_succ_of_le (filter_imp_length_le t p q h)
    · by_cases hp : p a = true
      · have hq := h a hp
        simp only [List.filter_cons, hp, hq, if_true, List.length_cons]
        exact Nat.succ_lt_succ (ih hxt)
      · have hp' : p a = false := eq_false_of_ne_true hp
        cases hq : q a
        · simp only [List.filter_cons, hp', hq, if_false]
          exact ih hxt
        · simp only [List.filter_cons, hp', hq, if_false, if_true, List.length_cons]
          exact Nat.lt_succ_of_lt (ih hxt)

theorem countNew_cons_lt (g : List (String × List String)) (v : List String)
    (x : String) (hx : x ∈ allNodes g) (hv : x ∉ v) :
    countNew g (x :: v) < countNew g v := by
  refine filter_imp_length_lt _ _ _ ?_ x hx ?_ ?_
  · intro a ha
    simp only [decide_eq_true_eq] at ha ⊢
    exact fun hm => ha (List.mem_cons_of_mem _ hm)
  · simpa using hv
  · simp

theorem countNew_cons_eq (g : List (String × List String)) (v : List String)
    (x : String) (hx : x ∉ allNodes g) :
    countNew g (x :: v) = countNew g v := by
  unfold countNew
  congr 1
  apply List.filter_congr
  intro a ha
  have hax : a ≠ x := fun he => hx (he ▸ ha)
  simp [List.mem_cons, hax]

theorem countNew_le_of_subset (g : List (String × List String))
    (v v' : List String) (h : v ⊆ v') :
    countNew g v' ≤ countNew g v := by
  apply filter_imp_length_le
  intro a ha
  simp only [decide_eq_true_eq] at ha ⊢
  exact fun hm => ha (h hm)

/-- Size of the pending work: a single node counts one, a list of pending
sibling dependencies counts twice its length, so that stepping from a node
to its (possibly empty) dependency list and from a list to its head both
shrink the lexicographic measure. -/
def traversalSize : String ⊕ List String → Nat
  | Sum.inl _ => 1
  | Sum.inr l => 2 * l.length

/-- The recursion of _find_all_dependencies, visited set threaded
explicitly.  A node already visited returns immediately; a new node is
added to the visited set and its adjacency list is processed, each entry
being appended and recursively expanded; every node-level return value is
deduplicated as list(set(...)) does.  Termination on arbitrary (also
cyclic) graphs: either the visited set grows inside the graph node set, or
the pending work shrinks. -/
def depsGo (g : List (String × List String)) (a : String ⊕ List String)
    (visited : List String) : List String × {v : List String // visited ⊆ v} :=
  match a with
  | Sum.inl fp =>
    if h : fp ∈ visited then ([], ⟨visited, List.Subset.refl _⟩)
    else
      match depsGo g (Sum.inr (lookupG g fp)) (fp :: visited) with
      | (ds, ⟨v1, hv1⟩) =>
        (dedup ds, ⟨v1, fun x hx => hv1 (List.mem_cons_of_mem _ hx)⟩)
  | Sum.inr [] => ([], ⟨visited, List.Subset.refl _⟩)
  | Sum.inr (dep :: rest) =>
    match depsGo g (Sum.inl dep) visited with
    | (ds, ⟨v1, hv1⟩) =>
      match depsGo g (Sum.inr rest) v1 with
      | (ds2, ⟨v2, hv2⟩) =>
        (dep :: ds ++ ds2, ⟨v2, fun x hx => hv2 (hv1 hx)⟩)
termination_by (countNew g visited, traversalSize a)
decreasing_by
  · by_cases hm : fp ∈ allNodes g
    · exact Prod.Lex.left _ _ (countNew_cons_lt g visited fp hm h)
    · rw [countNew_cons_eq g visited fp hm, lookupG_eq_nil_of_not_mem g fp hm]
      exact Prod.Lex.right _ (by simp [traversalSize])
  · exact Prod.Lex.right _ (by simp only [traversalSize, List.length_cons]; omega)
  · rcases Nat.lt_or_ge (countNew g v1) (countNew g visited) with hlt | hge
    · exact Prod.Lex.left _ _ hlt
    · have heq : countNew g v1 = countNew g visited :=
        Nat.le_antisymm (countNew_le_of_subset g visited v1 hv1) hge
      rw [heq]
      exact Prod.Lex.right _ (by simp only [traversalSize, List.length_cons]; omega)

/-- Model of _find_all_dependencies from the top-level call. -/
def find_all_dependencies (g : List (String × List String)) (fp : String) :
    List String :=
  (depsGo g (Sum.inl fp) []).1

/-- The set of nodes the traversal marked visited. -/
def traversalVisited (g : List (String × List String)) (fp : String) :
    List String :=
  (depsGo g (Sum.inl fp) []).2.1


/-! The relevance selector (find_relevant_files), phase by phase. -/

def vpc_keywords : List String :=
  ["vpc", "subnet", "cidr", "network", "route", "gateway"]

/-- One file matches when any keyword occurs in the lowercased content or
the lowercased path. -/
def matchesAnyKeyword (kws : List String) (fp content : String) : Bool :=
  kws.any (fun k => isSubstrS k (toLowerS content)) ||
    kws.any (fun k => isSubstrS k (toLowerS fp))

/-- First pass: direct keyword references. -/
def directPass (corpus : List (String × String)) (prompt : String) :
    List (String × String) :=
  corpus.filter (fun p =>
    matchesAnyKeyword (extract_keywords_from_prompt prompt) p.1 p.2)

/-- Domain augmentation: when the prompt mentions vpc or network, files
matching the fixed secondary keyword set are added. -/
def vpcAugment (corpus : List (String × String)) (prompt : String)
    (r1 : List (String × String)) : List (String × String) :=
  if ["vpc", "network"].any (fun t => isSubstrS t (toLowerS prompt)) then
    r1 ++ corpus.filter (fun p =>
      !((r1.map Prod.fst).contains p.1) && matchesAnyKeyword vpc_keywords p.1 p.2)
  else r1

def selectionBase (corpus : List (String × String)) (prompt : String) :
    List (String × String) :=
  vpcAugment corpus prompt (directPass corpus prompt)

/-- One step of the dependency collection dict: a dependency outside the
current result that is a corpus file is stored (dict semantics keep the
first insertion). -/
def depInsert (corpus : List (String × String)) (r2keys : List String)
    (acc : List (String × String)) (dep : String) : List (String × String) :=
  if r2keys.contains dep then acc
  else
    match corpus.find? (fun p => p.1 == dep) with
    | some p =>
      if (acc.map Prod.fst).contains dep then acc else acc ++ [(dep, p.2)]
    | none => acc

/-- The dependency pass: for every selected file, every transitive
dependency that is a corpus file and not yet selected is collected. -/
def collectDeps (corpus : List (String × String))
    (g : List (String × List String)) (r2keys : List String) :
    List (String × String) :=
  r2keys.foldl
    (fun acc fp => (find_all_dependencies g fp).foldl (depInsert corpus r2keys) acc)
    []

def addDependencyFiles (corpus : List (String × String))
    (g : List (String × List String)) (r2 : List (String × String)) :
    List (String × String) :=
  r2 ++ collectDeps corpus g (r2.map Prod.fst)

def isImportantPath (p : String) : Bool :=
  pyendswith p "main.tf" || pyendswith p "variables.tf" || pyendswith p "outputs.tf"

/-- Minimum-coverage fallback: with fewer than three entries, every not yet
selected corpus file with a conventionally important name is added. -/
def importantFallback (corpus : List (String × String))
    (r3 : List (String × String)) : List (String × String) :=
  if r3.length < 3 then
    r3 ++ corpus.filter (fun p =>
      !((r3.map Prod.fst).contains p.1) && isImportantPath p.1)
  else r3

/-- Model of find_relevant_files: keyword pass, domain augmentation,
dependency closure, minimum-coverage fallback, over the dependency graph
built from the same corpus. -/
def find_relevant_files (corpus : List (String × String)) (prompt : String) :
    List (String × String) :=
  importantFallback corpus
    (addDependencyFiles corpus (build_dependency_graph corpus)
      (selectionBase corpus prompt))


/-! Claim theorems for the response reconciler. -/

/-- The round-trip object text of the reconciler claims. -/
def objText : String :=
  "\x7b\"a.tf\": \"content-A\", \"b.tf\": \"content-B\"\x7d"

/-- The round-trip mapping of the reconciler claims. -/
def objMapping : Json :=
  Json.obj [("a.tf", Json.str "content-A"), ("b.tf", Json.str "content-B")]

/-- C6: on the raw text with two file marker sections and no structured
block, the reconciler returns exactly the two path/content pairs, with the
whitespace around each path and each content stripped. -/
theorem c6_manual_fallback_roundtrip :
    extract_modified_files "--- File: a.tf ---\nHELLO\n--- File: b.tf ---\nWORLD" =
      Json.obj [("a.tf", Json.str "HELLO"), ("b.tf", Json.str "WORLD")] := by
  rfl

/-- C5 counterexample: a raw text that contains a fenced structured block
whose inner text is exactly the round-trip object (the text literally
decomposes as a prefix, the fence tag, the object, the closing fence), yet
the reconciler returns the empty mapping, because the search only ever uses
the first fenced block and its inner text fails to parse. -/
theorem c5_counterexample :
    extract_modified_files ("```json bad ```" ++ "```json" ++ objText ++ "```") =
      Json.obj [] ∧ Json.obj [] ≠ objMapping := by
  constructor
  · rfl
  · intro h
    simp only [objMapping, Json.obj.injEq] at h
    exact List.noConfusion h

/-- C5 amended: whenever the fenced-block search itself yields the
round-trip object as the captured inner text, the reconciler returns
exactly the round-trip mapping. -/
theorem c5_first_fenced_roundtrip (s : String)
    (h : findFencedJson s.data = some objText.data) :
    extract_modified_files s = objMapping := by
  unfold extract_modified_files
  rw [h]
  rfl

/-- C5 witness: the amended theorem applied to a concrete raw text whose
first fenced block carries the round-trip object. -/
theorem c5_witness :
    findFencedJson ("```json\n" ++ objText ++ "\n```").data = some objText.data ∧
    extract_modified_files ("```json\n" ++ objText ++ "\n```") = objMapping := by
  refine ⟨by rfl, c5_first_fenced_roundtrip _ (by rfl)⟩

/-- C4 counterexample: a raw text that as a whole parses as a strict
key/value document, but which contains a fenced tag whose captured inner
text fails strict parsing; the code then skips the whole-text tier and
returns the (empty) manual extraction instead of the parsed mapping. -/
theorem c4_counterexample :
    findFencedJson "\x7b\"a.tf\": \"```json x ```\"\x7d".data = some "x".data ∧
    jsonParse "x".data = none ∧
    jsonParse "\x7b\"a.tf\": \"```json x ```\"\x7d".data =
      some (Json.obj [("a.tf", Json.str "```json x ```")]) ∧
    extract_modified_files "\x7b\"a.tf\": \"```json x ```\"\x7d" = Json.obj [] := by
  exact ⟨rfl, rfl, rfl, rfl⟩

/-- C4 amended: the whole-text parse is attempted exactly when no fenced
block is found, and succeeds into the returned mapping; when a fenced block
is found but its inner text fails strict parsing, the reconciler goes
directly to manual section extraction, skipping the whole-text tier. -/
theorem c4_tier_order (s : String) :
    (findFencedJson s.data = none → ∀ v, jsonParse s.data = some v →
      extract_modified_files s = v) ∧
    (∀ inner, findFencedJson s.data = some inner → jsonParse inner = none →
      extract_modified_files s = manualObj (extract_files_manually s)) := by
  constructor
  · intro h v hv
    unfold extract_modified_files
    rw [h, hv]
  · intro inner h hv
    unfold extract_modified_files
    rw [h]
    show (match jsonParse inner with
      | some v => v
      | none => manualObj (extract_files_manually s)) =
        manualObj (extract_files_manually s)
    rw [hv]

/-- C4 witness: both branches of the amended theorem at concrete inputs. -/
theorem c4_witness :
    extract_modified_files "\x7b\"k\": \"v\"\x7d" = Json.obj [("k", Json.str "v")] ∧
    extract_modified_files "```json\nnot json\n```" =
      manualObj (extract_files_manually "```json\nnot json\n```") := by
  exact ⟨(c4_tier_order _).1 (by rfl) _ (by rfl),
    (c4_tier_order _).2 "not json".data (by rfl) (by rfl)⟩

/-- C2 counterexample: the whole-text tier succeeds on an empty object, so
an empty mapping is returned even though no tier failed. -/
theorem c2_counterexample :
    findFencedJson "\x7b\x7d".data = none ∧
    jsonParse "\x7b\x7d".data = some (Json.obj []) ∧
    extract_modified_files "\x7b\x7d" = Json.obj [] := by
  exact ⟨rfl, rfl, rfl⟩

/-- C2 amended: the reconciler is a total function of the raw text (the
decode-error handler is the only exception path); whenever the attempted
structured tier fails the result is the manual extraction mapping, and an
empty mapping is returned only when the attempted structured tier itself
produced an empty object or when it failed and manual extraction found no
sections. -/
theorem c2_total_empty_conditions (s : String) :
    (structuredTierResult s = none →
      extract_modified_files s = manualObj (extract_files_manually s)) ∧
    (extract_modified_files s = Json.obj [] →
      structuredTierResult s = some (Json.obj []) ∨
      (structuredTierResult s = none ∧ extract_files_manually s = [])) := by
  cases hf : findFencedJson s.data with
  | some inner =>
    cases hp : jsonParse inner with
    | some v =>
      constructor
      · intro hc
        simp only [structuredTierResult, hf, hp] at hc
        exact Option.noConfusion hc
      · intro he
        simp only [extract_modified_files, hf, hp] at he
        exact Or.inl (by simp only [structuredTierResult, hf, hp, he])
    | none =>
      constructor
      · intro hdummy
        simp only [extract_modified_files, hf, hp]
      · intro he
        simp only [extract_modified_files, hf, hp, manualObj, Json.obj.injEq,
          List.map_eq_nil_iff] at he
        exact Or.inr ⟨by simp only [structuredTierResult, hf, hp], he⟩
  | none =>
    cases hp : jsonParse s.data with
    | some v =>
      constructor
      · intro hc
        simp only [structuredTierResult, hf, hp] at hc
        exact Option.noConfusion hc
      · intro he
        simp only [extract_modified_files, hf, hp] at he
        exact Or.inl (by simp only [structuredTierResult, hf, hp, he])
    | none =>
      constructor
      · intro hdummy
        simp only [extract_modified_files, hf, hp]
      · intro he
        simp only [extract_modified_files, hf, hp, manualObj, Json.obj.injEq,
          List.map_eq_nil_iff] at he
        exact Or.inr ⟨by simp only [structuredTierResult, hf, hp], he⟩

/-- C2 witness: the amended theorem at a raw text where every tier fails. -/
theorem c2_witness :
    extract_modified_files "" = manualObj (extract_files_manually "") ∧
    (structuredTierResult "" = some (Json.obj []) ∨
      (structuredTierResult "" = none ∧ extract_files_manually "" = [])) := by
  exact ⟨(c2_total_empty_conditions "").1 (by rfl),
    (c2_total_empty_conditions "").2 (by rfl)⟩


/-! Claim C3: the traversal on arbitrary, also cyclic, graphs. -/

theorem lookupG_subset_allNodes (g : List (String × List String)) (fp : String) :
    lookupG g fp ⊆ allNodes g := by
  induction g with
  | nil =>
    intro x hx
    simp only [lookupG, List.find?] at hx
    cases hx
  | cons p g' ih =>
    intro x hx
    have hexp : allNodes (p :: g') = p.1 :: (p.2 ++ allNodes g') := rfl
    rw [hexp]
    by_cases hb : (p.1 == fp) = true
    · simp only [lookupG, List.find?_cons, hb] at hx
      exact List.mem_cons_of_mem _ (List.mem_append_left _ hx)
    · have hb' : (p.1 == fp) = false := eq_false_of_ne_true hb
      simp only [lookupG, List.find?_cons, hb'] at hx
      exact List.mem_cons_of_mem _ (List.mem_append_right _ (ih hx))

/-- Membership at the root of the pending work. -/
def rootMem : String ⊕ List String → String → Prop
  | Sum.inl fp, x => x = fp
  | Sum.inr l, x => x ∈ l

/-- Step equations of the traversal, stated on the two projections so that
later proofs never rewrite under the dependent match. -/
theorem depsGo_inl_mem (g : List (String × List String)) (fp : String)
    (v : List String) (h : fp ∈ v) :
    (depsGo g (Sum.inl fp) v).1 = [] ∧ (depsGo g (Sum.inl fp) v).2.1 = v := by
  rw [depsGo.eq_def]
  simp [h]

theorem depsGo_inl_new (g : List (String × List String)) (fp : String)
    (v : List String) (h : fp ∉ v) :
    (depsGo g (Sum.inl fp) v).1 =
      dedup ((depsGo g (Sum.inr (lookupG g fp)) (fp :: v)).1) ∧
    (depsGo g (Sum.inl fp) v).2.1 =
      (depsGo g (Sum.inr (lookupG g fp)) (fp :: v)).2.1 := by
  rw [depsGo.eq_def]
  simp [h]

theorem depsGo_inr_nil (g : List (String × List String)) (v : List String) :
    (depsGo g (Sum.inr []) v).1 = [] ∧ (depsGo g (Sum.inr []) v).2.1 = v := by
  rw [depsGo.eq_def]
  simp

theorem depsGo_inr_cons (g : List (String × List String)) (dep : String)
    (rest v : List String) :
    (depsGo g (Sum.inr (dep :: rest)) v).1 =
      dep :: (depsGo g (Sum.inl dep) v).1 ++
        (depsGo g (Sum.inr rest) (depsGo g (Sum.inl dep) v).2.1).1 ∧
    (depsGo g (Sum.inr (dep :: rest)) v).2.1 =
      (depsGo g (Sum.inr rest) (depsGo g (Sum.inl dep) v).2.1).2.1 := by
  rw [depsGo.eq_def]
  simp

/-- Invariant of the traversal: starting from a duplicate-free visited list
the visited list stays duplicate-free (each node is expanded at most once),
and every visited node was already visited, is a root of the pending work,
or is a node of the graph. -/
theorem depsGo_visited_ok (g : List (String × List String))
    (a : String ⊕ List String) (v : List String) :
    (v.Nodup → ((depsGo g a v).2.1).Nodup) ∧
    (∀ x, x ∈ (depsGo g a v).2.1 → x ∈ v ∨ rootMem a x ∨ x ∈ allNodes g) := by
  induction a, v using depsGo.induct g with
  | case1 visited fp hmem =>
    rw [(depsGo_inl_mem g fp visited hmem).2]
    exact ⟨id, fun x hx => Or.inl hx⟩
  | case2 visited fp hmem ds v1 hv1 heq ih =>
    have hres := (depsGo_inl_new g fp visited hmem).2
    constructor
    · intro hnd
      rw [hres]
      exact ih.1 (List.nodup_cons.mpr ⟨hmem, hnd⟩)
    · intro x hx
      rw [hres] at hx
      rcases ih.2 x hx with hin | hin | hin
      · rcases List.mem_cons.mp hin with he | hv
        · exact Or.inr (Or.inl he)
        · exact Or.inl hv
      · exact Or.inr (Or.inr (lookupG_subset_allNodes g fp hin))
      · exact Or.inr (Or.inr hin)
  | case3 visited =>
    rw [(depsGo_inr_nil g visited).2]
    exact ⟨id, fun x hx => Or.inl hx⟩
  | case4 visited dep rest ds1 v1 hv1 heq1 ds2 v2 hv2 heq2 ih1 ih2 =>
    have hv1eq : (depsGo g (Sum.inl dep) visited).2.1 = v1 := by rw [heq1]
    have hres := (depsGo_inr_cons g dep rest visited).2
    rw [hv1eq] at hres
    constructor
    · intro hnd
      rw [hres]
      exact ih2.1 (by rw [← hv1eq]; exact ih1.1 hnd)
    · intro x hx
      rw [hres] at hx
      rcases ih2.2 x hx with hin | hin | hin
      · have h1 := ih1.2 x (by rwa [hv1eq])
        rcases h1 with hin1 | hin1 | hin1
        · exact Or.inl hin1
        · have hxd : x = dep := hin1
          exact Or.inr (Or.inl (by
            show x ∈ dep :: rest
            rw [hxd]
            exact List.mem_cons_self dep rest))
        · exact Or.inr (Or.inr hin1)
      · have : x ∈ dep :: rest := List.mem_cons_of_mem _ hin
        exact Or.inr (Or.inl this)
      · exact Or.inr (Or.inr hin)

/-- The starting node is always marked visited. -/
theorem mem_traversalVisited_self (g : List (String × List String))
    (fp : String) : fp ∈ traversalVisited g fp := by
  unfold traversalVisited
  have hnm : fp ∉ ([] : List String) := List.not_mem_nil fp
  rw [(depsGo_inl_new g fp [] hnm).2]
  exact (depsGo g (Sum.inr (lookupG g fp)) [fp]).2.2 (List.mem_cons_self _ _)

/-- C3: for every dependency graph, including cyclic ones, the transitive
dependency traversal terminates (the model is a total function defined by
well-founded recursion on the unvisited-node count) and visits every node
at most once: the visited set it produces is duplicate-free, and only ever
contains the start node and nodes of the graph. -/
theorem c3_traversal_no_revisit (g : List (String × List String)) (fp : String) :
    (traversalVisited g fp).Nodup ∧
    (∀ x, x ∈ traversalVisited g fp → x = fp ∨ x ∈ allNodes g) := by
  constructor
  · exact (depsGo_visited_ok g (Sum.inl fp) []).1 List.nodup_nil
  · intro x hx
    rcases (depsGo_visited_ok g (Sum.inl fp) []).2 x hx with hin | hin | hin
    · cases hin
    · exact Or.inl hin
    · exact Or.inr hin

/-- C3 witness: the traversal applied to a two-node cyclic graph. -/
theorem c3_witness :
    (traversalVisited [("a.tf", ["b.tf"]), ("b.tf", ["a.tf"])] "a.tf").Nodup ∧
    ("a.tf" = "a.tf" ∨ "a.tf" ∈ allNodes [("a.tf", ["b.tf"]), ("b.tf", ["a.tf"])]) := by
  exact ⟨(c3_traversal_no_revisit _ _).1,
    (c3_traversal_no_revisit [("a.tf", ["b.tf"]), ("b.tf", ["a.tf"])] "a.tf").2
      "a.tf" (mem_traversalVisited_self _ _)⟩


/-! Claim C9: keyword extraction characterised by the specification text. -/

/-- The claim side of C9, written from the specification: if one or more
fixed-vocabulary terms occur as substrings of the lowercased prompt, the
keyword set is exactly those matched terms; otherwise it is exactly the
lowercased word-tokens of length at least three that are not stop words. -/
def keywordSpecMem (prompt k : String) : Prop :=
  ((∃ t ∈ terraform_keywords, isSubstrS t (toLowerS prompt) = true) ∧
    k ∈ terraform_keywords ∧ isSubstrS k (toLowerS prompt) = true) ∨
  ((¬ ∃ t ∈ terraform_keywords, isSubstrS t (toLowerS prompt) = true) ∧
    (∃ r, r ∈ wordRunsAux [] (toLowerS prompt).data ∧ k = String.mk r ∧
      3 ≤ r.length) ∧
    k ∉ stop_words)

/-- C9: the extracted keyword list has exactly the membership the
specification describes; the extraction is a pure function of the prompt by
construction (it is a function of the prompt text alone), so identical
prompts yield identical keyword sets. -/
theorem c9_keyword_characterisation (prompt k : String) :
    k ∈ extract_keywords_from_prompt prompt ↔ keywordSpecMem prompt k := by
  unfold extract_keywords_from_prompt keywordSpecMem
  by_cases hex : ∃ t ∈ terraform_keywords, isSubstrS t (toLowerS prompt) = true
  · have hne : (terraform_keywords.filter
        (fun t => isSubstrS t (toLowerS prompt))).isEmpty = false := by
      rcases hex with ⟨t, ht, hs⟩
      rcases he : (terraform_keywords.filter
          (fun t => isSubstrS t (toLowerS prompt))).isEmpty with _ | _
      · rfl
      · exfalso
        have : t ∈ terraform_keywords.filter
            (fun t => isSubstrS t (toLowerS prompt)) :=
          List.mem_filter.mpr ⟨ht, hs⟩
        rw [List.isEmpty_iff.mp he] at this
        cases this
    simp only [hne, Bool.false_eq_true, if_false]
    simp [List.mem_filter, hex]
  · have hemp : (terraform_keywords.filter
        (fun t => isSubstrS t (toLowerS prompt))).isEmpty = true := by
      rw [List.isEmpty_iff, List.filter_eq_nil_iff]
      intro t ht hs
      exact hex ⟨t, ht, hs⟩
    simp only [hemp, if_true]
    constructor
    · intro hk
      obtain ⟨hmemtok, hstop⟩ := List.mem_filter.mp hk
      have hstop2 : k ∉ stop_words := by
        intro hm
        rw [Bool.not_eq_true'] at hstop
        have hc : stop_words.contains k = true := List.elem_iff.mpr hm
        rw [hstop] at hc
        cases hc
      obtain ⟨r, hrmem, hkr⟩ := List.mem_map.mp hmemtok
      have hrf := List.mem_filter.mp hrmem
      exact Or.inr ⟨hex, ⟨r, hrf.1, hkr.symm, by simpa using hrf.2⟩, hstop2⟩
    · intro hk
      rcases hk with ⟨hfound, _, _⟩ | ⟨_, ⟨r, hrmem, hkr, hlen⟩, hstop⟩
      · exact absurd hfound hex
      · apply List.mem_filter.mpr
        refine ⟨List.mem_map.mpr
          ⟨r, List.mem_filter.mpr ⟨hrmem, by simpa using hlen⟩, hkr.symm⟩, ?_⟩
        rw [Bool.not_eq_true']
        rcases hc : stop_words.contains k with _ | _
        · rfl
        · exact absurd (List.elem_iff.mp hc) hstop


/-! Membership facts about deduplication and the traversal result, used by
the selector claims. -/

theorem mem_of_mem_dedupAcc [BEq α] (l : List α) :
    ∀ (seen : List α) (x : α), x ∈ dedupAcc seen l → x ∈ l := by
  induction l with
  | nil => intro seen x hx; cases hx
  | cons a t ih =>
    intro seen x hx
    unfold dedupAcc at hx
    by_cases hc : (seen.contains a) = true
    · rw [if_pos hc] at hx
      exact List.mem_cons_of_mem _ (ih seen x hx)
    · rw [if_neg hc] at hx
      rcases List.mem_cons.mp hx with rfl | hx2
      · exact List.mem_cons_self _ _
      · exact List.mem_cons_of_mem _ (ih (a :: seen) x hx2)

theorem mem_dedupAcc_of_mem (l : List String) :
    ∀ (seen : List String) (x : String), x ∈ l → x ∉ seen →
      x ∈ dedupAcc seen l := by
  induction l with
  | nil => intro seen x hx; cases hx
  | cons a t ih =>
    intro seen x hx hns
    unfold dedupAcc
    by_cases hc : (seen.contains a) = true
    · rw [if_pos hc]
      rcases List.mem_cons.mp hx with rfl | hx2
      · exact absurd (List.elem_iff.mp hc) hns
      · exact ih seen x hx2 hns
    · rw [if_neg hc]
      rcases List.mem_cons.mp hx with rfl | hx2
      · exact List.mem_cons_self _ _
      · by_cases hxa : x = a
        · subst hxa
          exact List.mem_cons_self _ _
        · refine List.mem_cons_of_mem _ (ih (a :: seen) x hx2 ?_)
          intro hm
          rcases List.mem_cons.mp hm with he | hm2
          · exact hxa he
          · exact hns hm2

theorem mem_dedup_iff (x : String) (l : List String) :
    x ∈ dedup l ↔ x ∈ l := by
  constructor
  · exact mem_of_mem_dedupAcc l [] x
  · intro hx
    exact mem_dedupAcc_of_mem l [] x hx (List.not_mem_nil x)

/-- Every direct adjacency entry appears in the traversal output. -/
theorem mem_depsGo_inr (g : List (String × List String)) (l : List String)
    (d : String) (hd : d ∈ l) :
    ∀ v, d ∈ (depsGo g (Sum.inr l) v).1 := by
  induction l with
  | nil => cases hd
  | cons a t ih =>
    intro v
    rw [(depsGo_inr_cons g a t v).1]
    rcases List.mem_cons.mp hd with rfl | hdt
    · exact List.mem_cons_self _ _
    · exact List.mem_cons_of_mem _ (List.mem_append_right _ (ih hdt _))

/-- Direct dependencies are found by _find_all_dependencies. -/
theorem mem_find_all_dependencies_of_adj (g : List (String × List String))
    (fp d : String) (h : d ∈ lookupG g fp) :
    d ∈ find_all_dependencies g fp := by
  unfold find_all_dependencies
  rw [(depsGo_inl_new g fp [] (List.not_mem_nil fp)).1]
  exact (mem_dedup_iff _ _).mpr (mem_depsGo_inr g _ d h [fp])

/-! Fold lemmas for the dependency collection dict. -/

theorem depInsert_mem_or (corpus : List (String × String)) (ks : List String)
    (acc : List (String × String)) (d : String) (e : String × String)
    (he : e ∈ depInsert corpus ks acc d) : e ∈ acc ∨ e ∈ corpus := by
  unfold depInsert at he
  by_cases h1 : (ks.contains d) = true
  · rw [if_pos h1] at he
    exact Or.inl he
  · rw [if_neg h1] at he
    cases hf : corpus.find? (fun p => p.1 == d) with
    | none =>
      rw [hf] at he
      exact Or.inl he
    | some p =>
      rw [hf] at he
      have he2 : e ∈ (if (acc.map Prod.fst).contains d = true then acc
          else acc ++ [(d, p.2)]) := he
      by_cases h2 : ((acc.map Prod.fst).contains d) = true
      · rw [if_pos h2] at he2
        exact Or.inl he2
      · rw [if_neg h2] at he2
        rcases List.mem_append.mp he2 with ha | hb
        · exact Or.inl ha
        · have hp : p ∈ corpus := List.mem_of_find?_eq_some hf
          have hpd : p.1 = d := by
            have := List.find?_some hf
            exact eq_of_beq this
          rcases List.mem_cons.mp hb with rfl | hc
          · right
            have : (d, p.2) = p := by
              rw [← hpd]
            rw [this]
            exact hp
          · cases hc

theorem foldl_depInsert_mem_or (corpus : List (String × String))
    (ks : List String) (l : List String) :
    ∀ (acc : List (String × String)) (e : String × String),
      e ∈ l.foldl (depInsert corpus ks) acc → e ∈ acc ∨ e ∈ corpus := by
  induction l with
  | nil => intro acc e he; exact Or.inl he
  | cons d t ih =>
    intro acc e he
    rcases ih _ e he with h | h
    · exact depInsert_mem_or corpus ks acc d e h
    · exact Or.inr h

theorem collectDeps_subset (corpus : List (String × String))
    (g : List (String × List String)) (ks : List String) :
    ∀ e ∈ collectDeps corpus g ks, e ∈ corpus := by
  unfold collectDeps
  suffices h : ∀ (keys : List String) (acc : List (String × String))
      (e : String × String),
      e ∈ keys.foldl
        (fun acc fp => (find_all_dependencies g fp).foldl (depInsert corpus ks) acc)
        acc → e ∈ acc ∨ e ∈ corpus by
    intro e he
    rcases h ks [] e he with h1 | h1
    · cases h1
    · exact h1
  intro keys
  induction keys with
  | nil => intro acc e he; exact Or.inl he
  | cons fp t ih =>
    intro acc e he
    rcases ih _ e he with h1 | h1
    · exact foldl_depInsert_mem_or corpus ks _ acc e h1
    · exact Or.inr h1


/-! Claim C10: the selector result is a corpus subset and grows through the
phases. -/

theorem selectionBase_subset (corpus : List (String × String)) (prompt : String) :
    ∀ e ∈ selectionBase corpus prompt, e ∈ corpus := by
  intro e he
  unfold selectionBase vpcAugment at he
  by_cases hc : (["vpc", "network"].any fun t => isSubstrS t (toLowerS prompt)) = true
  · rw [if_pos hc] at he
    rcases List.mem_append.mp he with h | h
    · exact List.mem_of_mem_filter h
    · exact List.mem_of_mem_filter h
  · rw [if_neg hc] at he
    exact List.mem_of_mem_filter he

theorem addDependencyFiles_subset (corpus : List (String × String))
    (g : List (String × List String)) (r : List (String × String))
    (hr : ∀ e ∈ r, e ∈ corpus) :
    ∀ e ∈ addDependencyFiles corpus g r, e ∈ corpus := by
  intro e he
  unfold addDependencyFiles at he
  rcases List.mem_append.mp he with h | h
  · exact hr e h
  · exact collectDeps_subset corpus g _ e h

/-- C10: every entry of the selector result is an entry of the corpus, with
its exact content, and each selection phase only extends the previous one:
the direct keyword pass is contained in the augmented pass, which is
contained in the dependency pass, which is contained in the final result. -/
theorem c10_subset_monotone (corpus : List (String × String)) (prompt : String) :
    (∀ e ∈ find_relevant_files corpus prompt, e ∈ corpus) ∧
    (∀ e ∈ directPass corpus prompt, e ∈ selectionBase corpus prompt) ∧
    (∀ e ∈ selectionBase corpus prompt,
      e ∈ addDependencyFiles corpus (build_dependency_graph corpus)
        (selectionBase corpus prompt)) ∧
    (∀ e ∈ addDependencyFiles corpus (build_dependency_graph corpus)
        (selectionBase corpus prompt),
      e ∈ find_relevant_files corpus prompt) := by
  have hsel := selectionBase_subset corpus prompt
  have hadd := addDependencyFiles_subset corpus (build_dependency_graph corpus)
    (selectionBase corpus prompt) hsel
  refine ⟨?_, ?_, ?_, ?_⟩
  · intro e he
    unfold find_relevant_files importantFallback at he
    by_cases hl : (addDependencyFiles corpus (build_dependency_graph corpus)
        (selectionBase corpus prompt)).length < 3
    · rw [if_pos hl] at he
      rcases List.mem_append.mp he with h | h
      · exact hadd e h
      · exact List.mem_of_mem_filter h
    · rw [if_neg hl] at he
      exact hadd e he
  · intro e he
    unfold selectionBase vpcAugment
    by_cases hc : (["vpc", "network"].any fun t => isSubstrS t (toLowerS prompt)) = true
    · rw [if_pos hc]
      exact List.mem_append_left _ he
    · rw [if_neg hc]
      exact he
  · intro e he
    unfold addDependencyFiles
    exact List.mem_append_left _ he
  · intro e he
    unfold find_relevant_files importantFallback
    by_cases hl : (addDependencyFiles corpus (build_dependency_graph corpus)
        (selectionBase corpus prompt)).length < 3
    · rw [if_pos hl]
      exact List.mem_append_left _ he
    · rw [if_neg hl]
      exact he

/-- C10 witness: the subset and growth facts applied to a concrete corpus
and prompt. -/
theorem c10_witness :
    (("main.tf", "x") ∈ find_relevant_files [("main.tf", "x")] "zzz") ∧
    ("main.tf", "x") ∈ [("main.tf", "x")] := by
  refine ⟨by decide, (c10_subset_monotone [("main.tf", "x")] "zzz").1 _ (by decide)⟩


/-! Claim C7: module source edges and their traversal into the result. -/

/-- With duplicate-free paths, looking up a corpus file in the built graph
yields exactly the edges computed for that file. -/
theorem find?_map_keyfun (F : String → String → List String) :
    ∀ (l : List (String × String)) (k c : String),
      (l.map Prod.fst).Nodup → (k, c) ∈ l →
      (l.map (fun p => (p.1, F p.1 p.2))).find? (fun p => p.1 == k) =
        some (k, F k c) := by
  intro l
  induction l with
  | nil => intro k c hnd hmem; cases hmem
  | cons p t ih =>
    intro k c hnd hmem
    rcases List.mem_cons.mp hmem with he | hmemt
    · have hk : p.1 = k := by rw [← he]
      simp only [List.map_cons, List.find?_cons, hk, beq_self_eq_true]
      rw [← he]
    · have hnotin : p.1 ∉ t.map Prod.fst := (List.nodup_cons.mp hnd).1
      have hkmem : k ∈ t.map Prod.fst :=
        List.mem_map.mpr ⟨(k, c), hmemt, rfl⟩
      have hne : (p.1 == k) = false := by
        rw [beq_eq_false_iff_ne]
        intro he2
        exact hnotin (he2 ▸ hkmem)
      simp only [List.map_cons, List.find?_cons, hne]
      exact ih k c (List.nodup_cons.mp hnd).2 hmemt

theorem lookupG_build (corpus : List (String × String)) (k c : String)
    (hnd : (corpus.map Prod.fst).Nodup) (hmem : (k, c) ∈ corpus) :
    lookupG (build_dependency_graph corpus) k = depsFor corpus k c := by
  unfold lookupG build_dependency_graph
  rw [find?_map_keyfun (depsFor corpus) corpus k c hnd hmem]

theorem depInsert_keys_mono (corpus : List (String × String)) (ks : List String)
    (acc : List (String × String)) (d : String) :
    ∀ x ∈ acc.map Prod.fst, x ∈ (depInsert corpus ks acc d).map Prod.fst := by
  intro x hx
  unfold depInsert
  by_cases h1 : (ks.contains d) = true
  · rw [if_pos h1]; exact hx
  · rw [if_neg h1]
    cases hf : corpus.find? (fun p => p.1 == d) with
    | none => exact hx
    | some p =>
      by_cases h2 : ((acc.map Prod.fst).contains d) = true
      · simp only [h2, if_true]
        exact hx
      · simp only [h2, if_false, Bool.false_eq_true]
        rw [List.map_append]
        exact List.mem_append_left _ hx

theorem foldl_depInsert_keys_mono (corpus : List (String × String))
    (ks : List String) :
    ∀ (l : List String) (acc : List (String × String)) (x : String),
      x ∈ acc.map Prod.fst →
      x ∈ ((l.foldl (depInsert corpus ks) acc).map Prod.fst) := by
  intro l
  induction l with
  | nil => intro acc x hx; exact hx
  | cons d t ih =>
    intro acc x hx
    exact ih _ x (depInsert_keys_mono corpus ks acc d x hx)

theorem foldl_depInsert_adds (corpus : List (String × String))
    (ks : List String) :
    ∀ (l : List String) (acc : List (String × String)) (d : String),
      d ∈ l → (ks.contains d) = false →
      (∃ q, corpus.find? (fun p => p.1 == d) = some q) →
      d ∈ ((l.foldl (depInsert corpus ks) acc).map Prod.fst) := by
  intro l
  induction l with
  | nil => intro acc d hd; cases hd
  | cons a t ih =>
    intro acc d hd hks hq
    rcases List.mem_cons.mp hd with rfl | hdt
    · apply foldl_depInsert_keys_mono corpus ks t
      unfold depInsert
      rw [if_neg (by rw [hks]; exact Bool.false_ne_true)]
      rcases hq with ⟨q, hqe⟩
      rw [hqe]
      by_cases h2 : ((acc.map Prod.fst).contains d) = true
      · simp only [h2, if_true]
        exact List.elem_iff.mp h2
      · simp only [h2, if_false, Bool.false_eq_true]
        rw [List.map_append]
        exact List.mem_append_right _ (by simp)
    · exact ih _ d hdt hks hq

theorem collectDeps_outer_keys_mono (corpus : List (String × String))
    (g : List (String × List String)) (ks : List String) :
    ∀ (l : List String) (acc : List (String × String)) (x : String),
      x ∈ acc.map Prod.fst →
      x ∈ ((l.foldl (fun acc fp =>
        (find_all_dependencies g fp).foldl (depInsert corpus ks) acc)
          acc).map Prod.fst) := by
  intro l
  induction l with
  | nil => intro acc x hx; exact hx
  | cons fp t ih =>
    intro acc x hx
    exact ih _ x (foldl_depInsert_keys_mono corpus ks _ acc x hx)

theorem collectDeps_adds (corpus : List (String × String))
    (g : List (String × List String)) (ks : List String) (fp d : String)
    (hfp : fp ∈ ks) (hd : d ∈ find_all_dependencies g fp)
    (hks : ks.contains d = false)
    (hq : ∃ q, corpus.find? (fun p => p.1 == d) = some q) :
    d ∈ (collectDeps corpus g ks).map Prod.fst := by
  unfold collectDeps
  suffices h : ∀ (l : List String) (acc : List (String × String)), fp ∈ l →
      d ∈ ((l.foldl (fun acc fp =>
        (find_all_dependencies g fp).foldl (depInsert corpus ks) acc)
          acc).map Prod.fst) by
    exact h ks [] hfp
  intro l
  induction l with
  | nil => intro acc hmem; cases hmem
  | cons a t ih =>
    intro acc hmem
    rcases List.mem_cons.mp hmem with rfl | hmt
    · apply collectDeps_outer_keys_mono corpus g ks t
      exact foldl_depInsert_adds corpus ks _ acc d hd hks hq
    · exact ih _ hmt


/-- C7: whenever the corpus holds app/main.tf with a module declaration
whose source resolves to the network directory, the built graph has an edge
from app/main.tf to every corpus file whose path starts with network/,
whatever that file contains; and once app/main.tf is selected by the
keyword phases, every such file ends up in the selector result through the
transitive dependency closure. -/
theorem c7_module_prefix_edges (corpus : List (String × String))
    (c prompt f : String)
    (hnd : (corpus.map Prod.fst).Nodup)
    (hc : ("app/main.tf", c) ∈ corpus)
    (hsrc : "../network" ∈ extract_module_sources c)
    (hf : f ∈ corpus.map Prod.fst)
    (hpre : pystartswith f "network/" = true) :
    f ∈ lookupG (build_dependency_graph corpus) "app/main.tf" ∧
    ("app/main.tf" ∈ (selectionBase corpus prompt).map Prod.fst →
      f ∈ (find_relevant_files corpus prompt).map Prod.fst) := by
  have hstart : pystartswith f "network" = true := by
    unfold pystartswith at hpre ⊢
    rw [List.isPrefixOf_iff_prefix] at hpre ⊢
    exact List.IsPrefix.trans ⟨['/'], by decide⟩ hpre
  have hedge : f ∈ lookupG (build_dependency_graph corpus) "app/main.tf" := by
    rw [lookupG_build corpus "app/main.tf" c hnd hc]
    unfold depsFor
    apply List.mem_append_left
    unfold moduleEdges
    apply List.mem_flatMap.mpr
    refine ⟨"../network", hsrc, ?_⟩
    rw [if_pos (by decide)]
    apply List.mem_filter.mpr
    refine ⟨hf, ?_⟩
    have hres : resolveModuleDir "app/main.tf" "../network" = "network" := by
      decide
    rw [hres]
    exact hstart
  refine ⟨hedge, ?_⟩
  intro happ
  have hdep : f ∈ find_all_dependencies (build_dependency_graph corpus)
      "app/main.tf" :=
    mem_find_all_dependencies_of_adj _ _ _ hedge
  have hr3 : f ∈ (addDependencyFiles corpus (build_dependency_graph corpus)
      (selectionBase corpus prompt)).map Prod.fst := by
    unfold addDependencyFiles
    rw [List.map_append]
    by_cases hf2 : (((selectionBase corpus prompt).map Prod.fst).contains f) = true
    · exact List.mem_append_left _ (List.elem_iff.mp hf2)
    · apply List.mem_append_right
      apply collectDeps_adds corpus _ _ "app/main.tf" f happ hdep
      · exact eq_false_of_ne_true hf2
      · obtain ⟨p, hp, hpf⟩ := List.mem_map.mp hf
        have hsome : (corpus.find? (fun q => q.1 == f)).isSome := by
          rw [List.find?_isSome]
          exact ⟨p, hp, by rw [hpf]; exact beq_self_eq_true f⟩
        exact Option.isSome_iff_exists.mp hsome
  unfold find_relevant_files importantFallback
  by_cases hl : (addDependencyFiles corpus (build_dependency_graph corpus)
      (selectionBase corpus prompt)).length < 3
  · rw [if_pos hl, List.map_append]
    exact List.mem_append_left _ hr3
  · rw [if_neg hl]
    exact hr3

/-- The app/main.tf content of the C7 witness corpus. -/
def c7content : String :=
  "module \"net\" \x7b\n source = \"../network\"\n\x7d\n"

/-- The C7 witness corpus: the declaring file and a network file with no
textual relation to the prompt. -/
def c7corpus : List (String × String) :=
  [("app/main.tf", c7content),
   ("network/vpc.tf", "resource \"aws_vpc\" \"v\" \x7b\x7d")]

/-- C7 witness: on the witness corpus and the prompt vpc, the edge exists
and the network file is selected. -/
theorem c7_witness :
    "network/vpc.tf" ∈ lookupG (build_dependency_graph c7corpus) "app/main.tf" ∧
    "network/vpc.tf" ∈ (find_relevant_files c7corpus "vpc").map Prod.fst := by
  have h := c7_module_prefix_edges c7corpus c7content "vpc" "network/vpc.tf"
    (by decide) (by decide) (by decide) (by decide) (by decide)
  exact ⟨h.1, h.2 (by decide)⟩


/-! Claim C8: self-edges in the dependency graph. -/

/-- A file that declares a variable and references it itself. -/
def c8content : String := "variable \"x\" \x7b\x7d\nv = var.x"

def c8corpus : List (String × String) := [("main.tf", c8content)]

/-- C8 counterexample: the graph builder records an edge from main.tf to
itself, because the variable-declaration scan ranges over all files
including the referencing one. -/
theorem c8_counterexample :
    lookupG (build_dependency_graph c8corpus) "main.tf" = ["main.tf"] := by
  rfl

/-- C8 amended: every recorded edge points at a corpus file, but not
necessarily at a different one: whenever a file references a variable whose
textual declaration pattern occurs in its own content, the builder records
an edge from the file to itself. -/
theorem c8_edges_into_corpus (corpus : List (String × String))
    (hnd : (corpus.map Prod.fst).Nodup) :
    (∀ fp d, d ∈ lookupG (build_dependency_graph corpus) fp →
      d ∈ corpus.map Prod.fst) ∧
    (∀ fp content v, (fp, content) ∈ corpus →
      v ∈ extract_variable_references content →
      isSubstrS (varDeclPat v) content = true →
      fp ∈ lookupG (build_dependency_graph corpus) fp) := by
  constructor
  · intro fp d hd
    unfold lookupG at hd
    cases hfind : (build_dependency_graph corpus).find? (fun p => p.1 == fp) with
    | none =>
      rw [hfind] at hd
      cases hd
    | some pr =>
      rw [hfind] at hd
      have hpr : pr ∈ build_dependency_graph corpus :=
        List.mem_of_find?_eq_some hfind
      unfold build_dependency_graph at hpr
      obtain ⟨q, hq, hqe⟩ := List.mem_map.mp hpr
      rw [← hqe] at hd
      unfold depsFor at hd
      rcases List.mem_append.mp hd with hm | hm
      · unfold moduleEdges at hm
        obtain ⟨src, _, hin⟩ := List.mem_flatMap.mp hm
        by_cases hrel : (pystartswith src "./" || pystartswith src "../") = true
        · rw [if_pos hrel] at hin
          exact List.mem_of_mem_filter hin
        · rw [if_neg hrel] at hin
          cases hin
      · unfold varEdges at hm
        obtain ⟨v, _, hin⟩ := List.mem_flatMap.mp hm
        obtain ⟨q2, hq2, hq2e⟩ := List.mem_map.mp hin
        rw [← hq2e]
        exact List.mem_map.mpr ⟨q2, List.mem_of_mem_filter hq2, rfl⟩
  · intro fp content v hmem hv hdecl
    rw [lookupG_build corpus fp content hnd hmem]
    unfold depsFor
    apply List.mem_append_right
    unfold varEdges
    apply List.mem_flatMap.mpr
    exact ⟨v, hv, List.mem_map.mpr
      ⟨(fp, content), List.mem_filter.mpr ⟨hmem, hdecl⟩, rfl⟩⟩

/-- C8 witness: the amended theorem on the self-referencing corpus. -/
theorem c8_witness :
    "main.tf" ∈ c8corpus.map Prod.fst ∧
    "main.tf" ∈ lookupG (build_dependency_graph c8corpus) "main.tf" := by
  have h := c8_edges_into_corpus c8corpus (by decide)
  exact ⟨h.1 "main.tf" "main.tf" (by decide),
    h.2 "main.tf" c8content "x" (by decide) (by decide) (by decide)⟩

/-! Claim C1: the minimum-coverage guarantee. -/

theorem nodup_subset_length_le (l1 l2 : List String) (h1 : l1.Nodup)
    (hs : ∀ x ∈ l1, x ∈ l2) : l1.length ≤ l2.length := by
  classical
  calc l1.length = l1.toFinset.card := (List.toFinset_card_of_nodup h1).symm
    _ ≤ l2.toFinset.card := Finset.card_le_card
        (fun x hx => List.mem_toFinset.mpr (hs x (List.mem_toFinset.mp hx)))
    _ ≤ l2.length := l2.toFinset_card_le

/-- C1 counterexample: a one-file corpus with no conventional file name and
a prompt matching nothing yields an empty result, although the claim
demands at least min(3, corpus size) = 1 entry. -/
theorem c1_counterexample :
    min 3 ([("foo.tf", "xyz")] : List (String × String)).length = 1 ∧
    find_relevant_files [("foo.tf", "xyz")] "zzz" = [] := by
  exact ⟨by decide, by rfl⟩

/-- C1 amended: for every corpus with duplicate-free paths and every
prompt, the selector result has at least min(3, k) entries, where k is the
number of corpus files whose path ends in main.tf, variables.tf or
outputs.tf; in particular the result is non-empty whenever such a
conventionally named file exists, but can be empty otherwise. -/
theorem c1_min_coverage (corpus : List (String × String)) (prompt : String)
    (hnd : (corpus.map Prod.fst).Nodup) :
    min 3 ((corpus.filter (fun p => isImportantPath p.1)).length) ≤
      (find_relevant_files corpus prompt).length := by
  unfold find_relevant_files importantFallback
  by_cases hl : (addDependencyFiles corpus (build_dependency_graph corpus)
      (selectionBase corpus prompt)).length < 3
  · rw [if_pos hl]
    have hAnd : ((corpus.filter (fun p => isImportantPath p.1)).map Prod.fst).Nodup :=
      List.Nodup.sublist (List.Sublist.map Prod.fst (List.filter_sublist corpus)) hnd
    have hsub : ∀ x ∈ (corpus.filter (fun p => isImportantPath p.1)).map Prod.fst,
        x ∈ ((addDependencyFiles corpus (build_dependency_graph corpus)
            (selectionBase corpus prompt) ++
          corpus.filter (fun p =>
            !(((addDependencyFiles corpus (build_dependency_graph corpus)
                (selectionBase corpus prompt)).map Prod.fst).contains p.1) &&
              isImportantPath p.1)).map Prod.fst) := by
      intro x hx
      obtain ⟨p, hpA, hpx⟩ := List.mem_map.mp hx
      have hpcorpus : p ∈ corpus := List.mem_of_mem_filter hpA
      have himp : isImportantPath p.1 = true := (List.mem_filter.mp hpA).2
      rw [List.map_append]
      by_cases hc : (((addDependencyFiles corpus (build_dependency_graph corpus)
          (selectionBase corpus prompt)).map Prod.fst).contains p.1) = true
      · apply List.mem_append_left
        rw [← hpx]
        exact List.elem_iff.mp hc
      · apply List.mem_append_right
        apply List.mem_map.mpr
        refine ⟨p, List.mem_filter.mpr ⟨hpcorpus, ?_⟩, hpx⟩
        rw [eq_false_of_ne_true hc, himp]
        rfl
    have hlen : (corpus.filter (fun p => isImportantPath p.1)).length ≤
        (addDependencyFiles corpus (build_dependency_graph corpus)
            (selectionBase corpus prompt) ++
          corpus.filter (fun p =>
            !(((addDependencyFiles corpus (build_dependency_graph corpus)
                (selectionBase corpus prompt)).map Prod.fst).contains p.1) &&
              isImportantPath p.1)).length := by
      rw [← List.length_map (corpus.filter (fun p => isImportantPath p.1)) Prod.fst,
        ← List.length_map _ Prod.fst]
      exact nodup_subset_length_le _ _ hAnd hsub
    exact le_trans (Nat.min_le_right _ _) hlen
  · rw [if_neg hl]
    exact le_trans (Nat.min_le_left _ _) (Nat.le_of_not_lt hl)

/-- C1 witness: the amended bound on a corpus holding one conventionally
named file and a prompt matching nothing. -/
theorem c1_witness :
    ((([("main.tf", "x")] : List (String × String)).map Prod.fst).Nodup) ∧
    min 3 (([("main.tf", "x")] : List (String × String)).filter
        (fun p => isImportantPath p.1)).length ≤
      (find_relevant_files [("main.tf", "x")] "zzz").length := by
  exact ⟨by decide, c1_min_coverage [("main.tf", "x")] "zzz" (by decide)⟩

end TfAgent
